import Mathlib

/-!
Verification of the infohash package: a fingerprint of a struct's field
values made of a 64-bit FNV-1a full checksum plus Hamming-style parity
words over the per-field 32-bit FNV-1a checksums, allowing localization
of a single changed field.

The Go source is embedded shallowly:
  * bytes are `List Nat` (each entry is a byte value below 256);
  * machine words are `Nat` reduced modulo `2 ^ 32` / `2 ^ 64` where Go
    arithmetic overflows (only the FNV multiplications);
  * reflection over a Go value is modelled by `GoValue`: the only facts
    the code reads are whether the argument is a pointer, whether it
    points to a struct, and the list of (infohash tag, field value)
    pairs of that struct;
  * the spew serialization of a field value (an external collaborator,
    deterministic by precondition) is modelled by storing the serialized
    bytes themselves in `StructField.value`;
  * fallible Go functions return `Except String`; a Go runtime panic
    (index out of range) is the `Outcome.crash` value.
-/

namespace Infohash

/-- Byte strings: lists of byte values. -/
abbrev Bytes := List Nat

/-! ### FNV-1a hashing (`hash/fnv`, `fnv.New32a` / `fnv.New64a`) -/

def fnv32Prime : Nat := 16777619

def fnv32Offset : Nat := 2166136261

def fnv64Prime : Nat := 1099511628211

def fnv64Offset : Nat := 14695981039346656037

/-- One FNV-1a step of the 32-bit state: xor the byte in, then multiply by
the prime, truncated to 32 bits. -/
def fnv32Step (h b : Nat) : Nat := ((h ^^^ b) * fnv32Prime) % 2 ^ 32

/-- Writing a byte string to the 32-bit FNV-1a hash state. -/
def fnv32Write (h : Nat) (data : Bytes) : Nat := data.foldl fnv32Step h

/-- One FNV-1a step of the 64-bit state. -/
def fnv64Step (h b : Nat) : Nat := ((h ^^^ b) * fnv64Prime) % 2 ^ 64

/-- Writing a byte string to the 64-bit FNV-1a hash state. -/
def fnv64Write (h : Nat) (data : Bytes) : Nat := data.foldl fnv64Step h

/-! ### Records (`getFieldInfos`) -/

/-- One declared struct field: its `infohash` tag and the canonical
serialization (the spew `%#v` rendering with the fixed config) of the
value the field holds. -/
structure StructField where
  tag : Bytes
  value : Bytes
deriving DecidableEq, Repr

/-- The shape of the argument passed to `HashStruct` / `CompareHashStruct`,
as far as the reflection in `getFieldInfos` observes it. -/
inductive GoValue where
  | nonPtr
  | ptrToNonStruct
  | ptrToStruct (fields : List StructField)
deriving DecidableEq, Repr

/-- Model of `fieldInfo`: the tag (`name`) and the serialized bytes of the field
value (in Go a pointer to the field; serialization happens in
`getHashes`, deterministically, so the bytes are carried directly). -/
structure fieldInfo where
  name : Bytes
  fieldValue : Bytes
deriving DecidableEq, Repr

/-- The field-collection loop of `getFieldInfos`: walk the declared
fields, reject an empty tag or a tag seen before (the Go error messages
mention the field name; the message text is abstracted). -/
def collectFields : List StructField → List Bytes → Except String (List fieldInfo)
  | [], _ => .ok []
  | f :: fs, tags =>
    if f.tag = [] then .error "the field has no tag infohash"
    else if f.tag ∈ tags then .error "the tag is used more than once"
    else
      match collectFields fs (f.tag :: tags) with
      | .error e => .error e
      | .ok rest => .ok ({ name := f.tag, fieldValue := f.value } :: rest)

/-- Go string comparison `a < b`: lexicographic on bytes. -/
def bytesLt : Bytes → Bytes → Bool
  | _, [] => false
  | [], _ :: _ => true
  | a :: as, b :: bs => if a < b then true else if b < a then false else bytesLt as bs

/-- The sort order used by `sort.Slice(fieldInfos, less = name < name)`:
the non-strict order associated with bytewise `<` on names.  Since tags
are unique whenever the sort runs, any sort w.r.t. this order produces
the one strictly name-sorted permutation, so insertion sort is a
faithful model of `sort.Slice`. -/
def fieldLe (a b : fieldInfo) : Prop := ¬ bytesLt b.name a.name = true

instance : DecidableRel fieldLe := fun a b => by unfold fieldLe; infer_instance

/-- Sorting the field infos by tag, as `sort.Slice` does. -/
def sortFields (l : List fieldInfo) : List fieldInfo := List.insertionSort fieldLe l

/-- Model of `getFieldInfos`: validate the record shape and produce its field infos
sorted by tag. -/
def getFieldInfos : GoValue → Except String (List fieldInfo)
  | .nonPtr => .error "the object must be a pointer"
  | .ptrToNonStruct => .error "the object must be a pointer to a struct"
  | .ptrToStruct fields =>
    match collectFields fields [] with
    | .error e => .error e
    | .ok infos => .ok (sortFields infos)

/-! ### `getHashes` -/

/-- The byte stream fed to the hashes for one field: the tag bytes
immediately followed by the serialized value bytes (the Go code writes
`info.name` then the spew rendering to the same `io.MultiWriter`, with
no delimiter in between). -/
def fieldStream (info : fieldInfo) : Bytes := info.name ++ info.fieldValue

/-- The per-field 32-bit checksum: `fieldHash` is reset before each field,
then receives that field's stream. -/
def fieldChecksum (info : fieldInfo) : Nat := fnv32Write fnv32Offset (fieldStream info)

/-- Model of `getHashes`: the 64-bit hash accumulates every field's stream in one
pass (never reset); the 32-bit hash is reset per field, giving one
checksum per field.  The Go writes cannot fail, so no error is modelled. -/
def getHashes (fieldInfos : List fieldInfo) : Nat × List Nat :=
  (fieldInfos.foldl (fun h info => fnv64Write h (fieldStream info)) fnv64Offset,
   fieldInfos.map fieldChecksum)

/-! ### Hamming parity code -/

/-- The loop of `log2OfXPlusOne`, structurally recursive on a fuel bound
for its iteration count (halving `x` reaches zero within `x` steps, so
any fuel of at least `x` computes the same value, see `log2Loop_congr`). -/
def log2Loop : Nat → Nat → Nat
  | 0, _ => 0
  | fuel + 1, x => if x = 0 then 0 else log2Loop fuel (x / 2) + 1

/-- Model of `log2OfXPlusOne`: count how many right shifts by one (`x / 2`) it
takes until `x` reaches zero. -/
def log2OfXPlusOne (x : Nat) : Nat := log2Loop x x

theorem log2Loop_congr : ∀ (fuel fuel' x : Nat), x ≤ fuel → x ≤ fuel' →
    log2Loop fuel x = log2Loop fuel' x := by
  intro fuel
  induction fuel with
  | zero =>
    intro fuel' x hx _
    have h0 : x = 0 := by omega
    subst h0
    cases fuel' <;> simp [log2Loop]
  | succ f ih =>
    intro fuel' x hx hx'
    cases fuel' with
    | zero =>
      have h0 : x = 0 := by omega
      subst h0
      simp [log2Loop]
    | succ f' =>
      by_cases h0 : x = 0
      · subst h0
        simp [log2Loop]
      · simp only [log2Loop, if_neg h0]
        congr 1
        have hlt : x / 2 < x := Nat.div_lt_self (by omega) one_lt_two
        exact ih f' (x / 2) (by omega) (by omega)

/-- The inner loop of `calculateHammingCode`: for the field at 1-based
position `pos`, xor its checksum into every parity word whose index `i`
has `pos & (1 << i) != 0`.  The walk carries the current index `i`. -/
def updateParity (pos field : Nat) : Nat → List Nat → List Nat
  | _, [] => []
  | i, pc :: rest =>
    (if pos &&& (1 <<< i) ≠ 0 then pc ^^^ field else pc) :: updateParity pos field (i + 1) rest

/-- The outer loop of `calculateHammingCode` over the fields, carrying
the 0-based field index `id`. -/
def hammingLoop : List Nat → Nat → List Nat → List Nat
  | [], _, parityCodes => parityCodes
  | field :: rest, id, parityCodes => hammingLoop rest (id + 1) (updateParity (id + 1) field 0 parityCodes)

/-- Model of `calculateHammingCode`: `log2OfXPlusOne (len fields)` parity words,
initially zero, folded over the fields. -/
def calculateHammingCode (fields : List Nat) : List Nat :=
  hammingLoop fields 0 (List.replicate (log2OfXPlusOne fields.length) 0)

/-- The loop of `findErrorLocation` over the stored code, carrying the
index `i` and the accumulated `errorLocation`; reading `expectedCode[i]`
out of range is a Go panic, modelled as `none`. -/
def errorLocationLoop (expectedCode : List Nat) : List Nat → Nat → Nat → Option Nat
  | [], _, errorLocation => some errorLocation
  | h :: hs, i, errorLocation =>
    match expectedCode[i]? with
    | none => none
    | some e =>
      errorLocationLoop expectedCode hs (i + 1)
        (if h ≠ e then errorLocation ||| (1 <<< i) else errorLocation)

/-- Model of `findErrorLocation`: recompute the parity words from the (new) field
checksums, build the syndrome bit pattern against the stored code, and
decode it as a 1-based field position; `none` models the Go panic. -/
def findErrorLocation (fields hammingCode : List Nat) : Option (Bool × Nat) :=
  match errorLocationLoop (calculateHammingCode fields) hammingCode 0 0 with
  | none => none
  | some errorLocation =>
    if errorLocation = 0 ∨ errorLocation > fields.length then some (false, 0)
    else some (true, errorLocation - 1)

/-! ### Byte codec -/

/-- Model of `uint64FromSlice`: little-endian decoding of the first 8 bytes; the
Go `|` of bytes shifted into disjoint lanes is their weighted sum.  The
caller has already guaranteed 8 bytes are present (Go would have panicked
at the `[:8]` slice otherwise, which the caller models). -/
def uint64FromSlice (s : Bytes) : Nat :=
  match s with
  | b0 :: b1 :: b2 :: b3 :: b4 :: b5 :: b6 :: b7 :: _ =>
    b0 + b1 * 2 ^ 8 + b2 * 2 ^ 16 + b3 * 2 ^ 24 + b4 * 2 ^ 32 + b5 * 2 ^ 40 +
      b6 * 2 ^ 48 + b7 * 2 ^ 56
  | _ => 0

/-- Model of `uint64ToSlice`: the eight little-endian bytes of a 64-bit word; the
Go `byte(0xff & (i >> 8k))` is `i / 2 ^ (8 * k) % 2 ^ 8`. -/
def uint64ToSlice (i : Nat) : Bytes :=
  [i % 2 ^ 8, i / 2 ^ 8 % 2 ^ 8, i / 2 ^ 16 % 2 ^ 8, i / 2 ^ 24 % 2 ^ 8,
   i / 2 ^ 32 % 2 ^ 8, i / 2 ^ 40 % 2 ^ 8, i / 2 ^ 48 % 2 ^ 8, i / 2 ^ 56 % 2 ^ 8]

/-- Model of `uint32SliceFromByteSlice`: `len(s)/4` words decoded little-endian
from consecutive 4-byte groups; trailing bytes short of a full group are
dropped. -/
def uint32SliceFromByteSlice : Bytes → List Nat
  | b0 :: b1 :: b2 :: b3 :: rest =>
    (b0 + b1 * 2 ^ 8 + b2 * 2 ^ 16 + b3 * 2 ^ 24) :: uint32SliceFromByteSlice rest
  | _ => []

/-- The four little-endian bytes of one 32-bit word. -/
def uint32ToSlice (w : Nat) : Bytes :=
  [w % 2 ^ 8, w / 2 ^ 8 % 2 ^ 8, w / 2 ^ 16 % 2 ^ 8, w / 2 ^ 24 % 2 ^ 8]

/-- Model of `uint32SliceToByteSlice`: each word contributes its four little-endian
bytes, in order. -/
def uint32SliceToByteSlice : List Nat → Bytes
  | [] => []
  | w :: ws => uint32ToSlice w ++ uint32SliceToByteSlice ws

/-! ### `HashStruct` and `CompareHashStruct` -/

/-- Model of `hashInfo`: 8 bytes of full checksum followed by the parity words. -/
def hashInfo (fieldInfos : List fieldInfo) : Bytes :=
  let hashes := getHashes fieldInfos
  uint64ToSlice hashes.1 ++ uint32SliceToByteSlice (calculateHammingCode hashes.2)

/-- Model of `HashStruct`: validate and collect the fields, then fingerprint them. -/
def HashStruct (obj : GoValue) : Except String Bytes :=
  match getFieldInfos obj with
  | .error e => .error e
  | .ok fieldInfos => .ok (hashInfo fieldInfos)

/-- The error value returned by `CompareHashStruct` when a field changed;
an empty `Field` means the change could not be localized. -/
structure FieldChangedError where
  Field : Bytes
deriving DecidableEq, Repr

/-- What a call to `CompareHashStruct` does: return `nil` (`ok none`),
return a `FieldChangedError` (`ok (some e)`), return the validation error
of `getFieldInfos` (`invalid`), or panic on an out-of-range index
(`crash`). -/
inductive Outcome where
  | ok (err : Option FieldChangedError)
  | invalid (msg : String)
  | crash
deriving DecidableEq, Repr

/-- Model of `CompareHashStruct`: recompute the hashes of the record, compare the
full checksum with the stored leading 8 bytes, and on mismatch decode the
syndrome of the stored parity words to name the changed field. -/
def CompareHashStruct (obj : GoValue) (existingHash : Bytes) : Outcome :=
  match getFieldInfos obj with
  | .error e => .invalid e
  | .ok fieldInfos =>
    let hashes := getHashes fieldInfos
    if existingHash.length < 8 then .crash
    else if uint64FromSlice existingHash = hashes.1 then .ok none
    else
      match findErrorLocation hashes.2 (uint32SliceFromByteSlice (List.drop 8 existingHash)) with
      | none => .crash
      | some (false, _) => .ok (some { Field := [] })
      | some (true, location) =>
        match fieldInfos[location]? with
        | none => .crash
        | some mismatchingField => .ok (some { Field := mismatchingField.name })

/-! ### Spec reference definition for the parity words -/

/-- Reference from the spec's words, walking the checksums with their
1-based positions: include a checksum in the xor when bit `k` of its
position is set. -/
def xorChecksums (k : Nat) : List Nat → Nat → Nat
  | [], _ => 0
  | f :: fs, pos => (if pos.testBit k then f else 0) ^^^ xorChecksums k fs (pos + 1)

/-- Spec reference: "the k-th parity word is the XOR of every field
checksum whose 1-based position has bit k set". -/
def parityWordSpec (fields : List Nat) (k : Nat) : Nat := xorChecksums k fields 1

/-! ### Arithmetic facts about `log2OfXPlusOne` -/

theorem log2OfXPlusOne_zero : log2OfXPlusOne 0 = 0 := rfl

theorem log2OfXPlusOne_of_ne_zero {x : Nat} (h : x ≠ 0) :
    log2OfXPlusOne x = log2OfXPlusOne (x / 2) + 1 := by
  cases x with
  | zero => exact absurd rfl h
  | succ x' =>
    show log2Loop (x' + 1) (x' + 1) = log2Loop ((x' + 1) / 2) ((x' + 1) / 2) + 1
    simp only [log2Loop, if_neg (Nat.succ_ne_zero x')]
    congr 1
    exact log2Loop_congr x' ((x' + 1) / 2) ((x' + 1) / 2) (by omega) (by omega)

theorem log2OfXPlusOne_pos {x : Nat} (h : x ≠ 0) : 0 < log2OfXPlusOne x := by
  rw [log2OfXPlusOne_of_ne_zero h]; omega

theorem lt_two_pow_log2OfXPlusOne (x : Nat) : x < 2 ^ log2OfXPlusOne x := by
  induction x using Nat.strong_induction_on with
  | _ x ih =>
    by_cases h : x = 0
    · subst h; simp [log2OfXPlusOne_zero]
    · rw [log2OfXPlusOne_of_ne_zero h]
      have hlt : x / 2 < x := Nat.div_lt_self (Nat.pos_of_ne_zero h) one_lt_two
      have h2 := ih (x / 2) hlt
      rw [pow_succ]
      omega

theorem two_pow_pred_log2OfXPlusOne_le {x : Nat} (h : x ≠ 0) :
    2 ^ (log2OfXPlusOne x - 1) ≤ x := by
  induction x using Nat.strong_induction_on with
  | _ x ih =>
    rw [log2OfXPlusOne_of_ne_zero h, Nat.add_sub_cancel]
    by_cases h2 : x / 2 = 0
    · rw [h2, log2OfXPlusOne_zero]
      exact Nat.pos_of_ne_zero h
    · have hlt : x / 2 < x := Nat.div_lt_self (Nat.pos_of_ne_zero h) one_lt_two
      have hp := log2OfXPlusOne_pos h2
      have hle := ih (x / 2) hlt h2
      have : 2 ^ log2OfXPlusOne (x / 2) = 2 * 2 ^ (log2OfXPlusOne (x / 2) - 1) := by
        rw [← pow_succ']
        congr 1
        omega
      omega

theorem log2OfXPlusOne_eq_clog (x : Nat) : log2OfXPlusOne x = Nat.clog 2 (x + 1) := by
  apply Nat.le_antisymm
  · by_cases h : x = 0
    · subst h; simp [log2OfXPlusOne_zero]
    · by_contra hc
      push_neg at hc
      have h1 : Nat.clog 2 (x + 1) ≤ log2OfXPlusOne x - 1 := by omega
      have h2 : x + 1 ≤ 2 ^ (log2OfXPlusOne x - 1) :=
        (Nat.le_pow_iff_clog_le one_lt_two).2 h1
      have h3 := two_pow_pred_log2OfXPlusOne_le h
      omega
  · exact (Nat.le_pow_iff_clog_le one_lt_two).1 (lt_two_pow_log2OfXPlusOne x)

/-! ### Bit-level helpers -/

theorem and_one_shiftLeft_ne {pos i : Nat} :
    pos &&& (1 <<< i) ≠ 0 ↔ pos.testBit i := by
  rw [Nat.one_shiftLeft]
  constructor
  · intro h
    obtain ⟨j, hj⟩ := Nat.ne_zero_implies_bit_true h
    rw [Nat.testBit_and, Nat.testBit_two_pow] at hj
    rcases Bool.and_eq_true .. |>.mp hj with ⟨hpos, hij⟩
    have : i = j := of_decide_eq_true hij
    subst this
    exact hpos
  · intro h hzero
    have := congrArg (fun n => Nat.testBit n i) hzero
    simp only [Nat.testBit_and, Nat.testBit_two_pow, Nat.zero_testBit] at this
    rw [h] at this
    simp at this

theorem xor_ne_self_iff {a d : Nat} : a ^^^ d ≠ a ↔ d ≠ 0 := by
  constructor
  · intro h hd
    subst hd
    simp at h
  · intro hd h
    have : a ^^^ (a ^^^ d) = a ^^^ a := congrArg (a ^^^ ·) h
    rw [← Nat.xor_assoc, Nat.xor_self, Nat.zero_xor] at this
    exact hd this

/-! ### Characterization of `calculateHammingCode` -/

theorem updateParity_length (pos f i : Nat) (cs : List Nat) :
    (updateParity pos f i cs).length = cs.length := by
  induction cs generalizing i with
  | nil => rfl
  | cons c cs ih => simp [updateParity, ih]

theorem updateParity_getElem (pos f : Nat) (cs : List Nat) (i k : Nat) (hk : k < cs.length)
    (hk2 : k < (updateParity pos f i cs).length) :
    (updateParity pos f i cs)[k] =
      if pos.testBit (i + k) then cs[k] ^^^ f else cs[k] := by
  induction cs generalizing i k with
  | nil => exact absurd hk (by simp)
  | cons c cs ih =>
    cases k with
    | zero =>
      by_cases h : pos.testBit i
      · simp [updateParity, and_one_shiftLeft_ne.2 h, h]
      · have : ¬ pos &&& (1 <<< i) ≠ 0 := fun hc => h (and_one_shiftLeft_ne.1 hc)
        simp [updateParity, this, h]
    | succ k =>
      have hk' : k < cs.length := by simpa using hk
      have hk2' : k < (updateParity pos f (i + 1) cs).length := by
        rw [updateParity_length]
        exact hk'
      have := ih (i + 1) k hk' hk2'
      have harith : i + 1 + k = i + (k + 1) := by omega
      simpa [updateParity, harith] using this

theorem hammingLoop_length (fs : List Nat) (id : Nat) (cs : List Nat) :
    (hammingLoop fs id cs).length = cs.length := by
  induction fs generalizing id cs with
  | nil => rfl
  | cons f fs ih => simp [hammingLoop, ih, updateParity_length]

theorem hammingLoop_getElem (fs : List Nat) (id : Nat) (cs : List Nat) (k : Nat)
    (hk : k < cs.length) (hk2 : k < (hammingLoop fs id cs).length) :
    (hammingLoop fs id cs)[k] = cs[k] ^^^ xorChecksums k fs (id + 1) := by
  induction fs generalizing id cs with
  | nil => simp [hammingLoop, xorChecksums]
  | cons f fs ih =>
    have hk' : k < (updateParity (id + 1) f 0 cs).length := by
      rw [updateParity_length]; exact hk
    have hk2' : k < (hammingLoop fs (id + 1) (updateParity (id + 1) f 0 cs)).length := by
      rw [hammingLoop_length]
      exact hk'
    have h1 := ih (id + 1) (updateParity (id + 1) f 0 cs) hk' hk2'
    have h2 := updateParity_getElem (id + 1) f cs 0 k hk hk'
    simp only [Nat.zero_add] at h2
    show (hammingLoop fs (id + 1) (updateParity (id + 1) f 0 cs))[k] = _
    rw [h1, h2]
    by_cases h : (id + 1).testBit k
    · simp [xorChecksums, h, Nat.xor_assoc]
    · simp [xorChecksums, h]

theorem calculateHammingCode_length (fields : List Nat) :
    (calculateHammingCode fields).length = log2OfXPlusOne fields.length := by
  unfold calculateHammingCode
  rw [hammingLoop_length, List.length_replicate]

theorem calculateHammingCode_getElem (fields : List Nat) (k : Nat)
    (hk : k < log2OfXPlusOne fields.length)
    (hk2 : k < (calculateHammingCode fields).length) :
    (calculateHammingCode fields)[k] = xorChecksums k fields 1 := by
  have hk' : k < (List.replicate (log2OfXPlusOne fields.length) (0 : Nat)).length := by
    simpa using hk
  have hk2' : k < (hammingLoop fields 0
      (List.replicate (log2OfXPlusOne fields.length) 0)).length := hk2
  show (hammingLoop fields 0 (List.replicate (log2OfXPlusOne fields.length) 0))[k] = _
  rw [hammingLoop_getElem fields 0 _ k hk' hk2']
  simp

/-! ### Lengths of the encoded pieces -/

theorem uint32SliceToByteSlice_length (ws : List Nat) :
    (uint32SliceToByteSlice ws).length = 4 * ws.length := by
  induction ws with
  | nil => rfl
  | cons w ws ih => simp [uint32SliceToByteSlice, uint32ToSlice, ih]; omega

theorem uint64ToSlice_length (i : Nat) : (uint64ToSlice i).length = 8 := rfl

theorem getHashes_snd_length (infos : List fieldInfo) :
    (getHashes infos).2.length = infos.length := by
  simp [getHashes]

theorem hashInfo_def (infos : List fieldInfo) :
    hashInfo infos =
      uint64ToSlice (getHashes infos).1 ++
        uint32SliceToByteSlice (calculateHammingCode (getHashes infos).2) := rfl

theorem hashInfo_length (infos : List fieldInfo) :
    (hashInfo infos).length = 8 + 4 * log2OfXPlusOne infos.length := by
  rw [hashInfo_def]
  simp [uint64ToSlice_length, uint32SliceToByteSlice_length, calculateHammingCode_length,
    getHashes_snd_length]

theorem collectFields_length {fs : List StructField} {tags : List Bytes}
    {infos : List fieldInfo} (h : collectFields fs tags = .ok infos) :
    infos.length = fs.length := by
  induction fs generalizing tags infos with
  | nil =>
    simp [collectFields] at h
    simp [← h]
  | cons f fs ih =>
    by_cases h1 : f.tag = []
    · simp [collectFields, h1] at h
    · by_cases h2 : f.tag ∈ tags
      · simp [collectFields, h1, h2] at h
      · simp only [collectFields, if_neg h1, if_neg h2] at h
        cases hrec : collectFields fs (f.tag :: tags) with
        | error e => rw [hrec] at h; cases h
        | ok rest =>
          rw [hrec] at h
          cases h
          simp [ih hrec]

theorem sortFields_length (l : List fieldInfo) : (sortFields l).length = l.length :=
  (List.perm_insertionSort fieldLe l).length_eq

theorem getFieldInfos_ptrToStruct (fields : List StructField) :
    getFieldInfos (.ptrToStruct fields) =
      match collectFields fields [] with
      | .error e => .error e
      | .ok infos => .ok (sortFields infos) := rfl

theorem getFieldInfos_ptrToStruct_length {fields : List StructField} {infos : List fieldInfo}
    (h : getFieldInfos (.ptrToStruct fields) = .ok infos) : infos.length = fields.length := by
  rw [getFieldInfos_ptrToStruct] at h
  cases hc : collectFields fields [] with
  | error e => rw [hc] at h; cases h
  | ok l =>
    rw [hc] at h
    cases h
    rw [sortFields_length, collectFields_length hc]

/-! ### The full checksum round-trips through the codec -/

theorem fnv64Write_lt {h : Nat} (data : Bytes) (hh : h < 2 ^ 64) :
    fnv64Write h data < 2 ^ 64 := by
  induction data generalizing h with
  | nil => exact hh
  | cons b bs ih =>
    apply ih
    exact Nat.mod_lt _ (by norm_num)

theorem getHashes_fst_lt (infos : List fieldInfo) : (getHashes infos).1 < 2 ^ 64 := by
  have : ∀ (l : List fieldInfo) (h0 : Nat), h0 < 2 ^ 64 →
      l.foldl (fun h info => fnv64Write h (fieldStream info)) h0 < 2 ^ 64 := by
    intro l
    induction l with
    | nil => intro h0 hh; exact hh
    | cons i is ih =>
      intro h0 hh
      exact ih _ (fnv64Write_lt _ hh)
  exact this _ _ (by norm_num [fnv64Offset])

theorem uint64FromSlice_uint64ToSlice_append (i : Nat) (hi : i < 2 ^ 64) (rest : Bytes) :
    uint64FromSlice (uint64ToSlice i ++ rest) = i := by
  simp only [uint64ToSlice, List.cons_append, List.nil_append, uint64FromSlice]
  have h8 : (2 : Nat) ^ 8 = 256 := rfl
  have h16 : (2 : Nat) ^ 16 = 65536 := rfl
  have h24 : (2 : Nat) ^ 24 = 16777216 := rfl
  have h32 : (2 : Nat) ^ 32 = 4294967296 := rfl
  have h40 : (2 : Nat) ^ 40 = 1099511627776 := rfl
  have h48 : (2 : Nat) ^ 48 = 281474976710656 := rfl
  have h56 : (2 : Nat) ^ 56 = 72057594037927936 := rfl
  have h64 : (2 : Nat) ^ 64 = 18446744073709551616 := rfl
  rw [h8, h16, h24, h32, h40, h48, h56] at *
  rw [h64] at hi
  omega

/-! ### Unfolding lemmas for the top-level functions -/

theorem HashStruct_ok {obj : GoValue} {infos : List fieldInfo}
    (hg : getFieldInfos obj = .ok infos) : HashStruct obj = .ok (hashInfo infos) := by
  unfold HashStruct
  rw [hg]

theorem CompareHashStruct_ok {obj : GoValue} {infos : List fieldInfo}
    (hg : getFieldInfos obj = .ok infos) (eh : Bytes) :
    CompareHashStruct obj eh =
      (if eh.length < 8 then .crash
       else if uint64FromSlice eh = (getHashes infos).1 then .ok none
       else
         match findErrorLocation (getHashes infos).2 (uint32SliceFromByteSlice (List.drop 8 eh)) with
         | none => .crash
         | some (false, _) => .ok (some { Field := [] })
         | some (true, location) =>
           match infos[location]? with
           | none => .crash
           | some f => .ok (some { Field := f.name })) := by
  unfold CompareHashStruct
  rw [hg]

/-- C5: Parity encoder reference definition: `calculateHammingCode` returns
exactly `ceil(log2(n+1))` parity words for `n` field checksums (none for
`n = 0`), and the k-th word is the XOR of every field checksum whose
1-based position in the vector has bit k set. -/
theorem C5_calculateHammingCode_eq_spec (fields : List Nat) :
    calculateHammingCode fields =
      (List.range (Nat.clog 2 (fields.length + 1))).map (parityWordSpec fields) := by
  apply List.ext_getElem
  · rw [calculateHammingCode_length, List.length_map, List.length_range,
      log2OfXPlusOne_eq_clog]
  · intro k h1 h2
    rw [List.getElem_map, List.getElem_range]
    have hk : k < log2OfXPlusOne fields.length := by
      rw [calculateHammingCode_length] at h1
      exact h1
    rw [calculateHammingCode_getElem fields k hk]
    rfl

/-- C3: No-change round trip: for every record accepted by
`getFieldInfos`, comparing the record against its own fresh fingerprint
returns nil (`Outcome.ok none`, i.e. unchanged). -/
theorem C3_compare_hash_roundtrip (obj : GoValue) (infos : List fieldInfo) (h : Bytes)
    (hg : getFieldInfos obj = .ok infos) (hh : HashStruct obj = .ok h) :
    CompareHashStruct obj h = .ok none := by
  have hh' : hashInfo infos = h := by
    have := HashStruct_ok hg
    rw [this] at hh
    exact (Except.ok.injEq _ _).mp hh
  subst hh'
  rw [CompareHashStruct_ok hg]
  have h8 : ¬ (hashInfo infos).length < 8 := by
    rw [hashInfo_length]
    omega
  have hdec : uint64FromSlice (hashInfo infos) = (getHashes infos).1 := by
    rw [hashInfo_def]
    exact uint64FromSlice_uint64ToSlice_append _ (getHashes_fst_lt infos) _
  rw [if_neg h8, if_pos hdec]

/-- Witness for C3 at a concrete two-field record. -/
theorem C3_compare_hash_roundtrip_witness :
    CompareHashStruct
        (.ptrToStruct [{ tag := [97], value := [1] }, { tag := [98], value := [2] }])
        (hashInfo [{ name := [97], fieldValue := [1] }, { name := [98], fieldValue := [2] }]) =
      .ok none :=
  C3_compare_hash_roundtrip _
    [{ name := [97], fieldValue := [1] }, { name := [98], fieldValue := [2] }] _
    (by rfl) (by rfl)

/-- C6: Length law: for every record accepted by `getFieldInfos` with `n`
declared fields, `HashStruct` succeeds and its fingerprint has exactly
`8 + 4 * ceil(log2(n+1))` bytes, a function of the field count only. -/
theorem C6_HashStruct_length (fields : List StructField) (infos : List fieldInfo)
    (hg : getFieldInfos (.ptrToStruct fields) = .ok infos) :
    HashStruct (.ptrToStruct fields) = .ok (hashInfo infos) ∧
      (hashInfo infos).length = 8 + 4 * Nat.clog 2 (fields.length + 1) := by
  refine ⟨HashStruct_ok hg, ?_⟩
  rw [hashInfo_length, getFieldInfos_ptrToStruct_length hg, log2OfXPlusOne_eq_clog]

/-- Witness for C6 at a concrete one-field record: 12 bytes. -/
theorem C6_HashStruct_length_witness :
    HashStruct (.ptrToStruct [{ tag := [97], value := [1] }]) =
        .ok (hashInfo [{ name := [97], fieldValue := [1] }]) ∧
      (hashInfo [{ name := [97], fieldValue := [1] }]).length = 8 + 4 * Nat.clog 2 2 :=
  C6_HashStruct_length [{ tag := [97], value := [1] }]
    [{ name := [97], fieldValue := [1] }] (by rfl)

/-! ### The syndrome of a single changed checksum -/

theorem xor_rearrange (a b x : Nat) : (a ^^^ x) ^^^ (a ^^^ b) = b ^^^ x := by
  apply Nat.eq_of_testBit_eq
  intro i
  simp only [Nat.testBit_xor]
  cases a.testBit i <;> cases x.testBit i <;> cases b.testBit i <;> rfl

theorem xorChecksums_single_change (k : Nat) (old : List Nat) :
    ∀ (new : List Nat) (pos i : Nat) (hi : i < old.length)
      (hlen : old.length = new.length)
      (_ : ∀ j (hj : j < old.length), j ≠ i → old[j] = new[j]),
      xorChecksums k new pos =
        xorChecksums k old pos ^^^
          (if (pos + i).testBit k then old[i] ^^^ new[i] else 0) := by
  induction old with
  | nil => intro new pos i hi; exact absurd hi (by simp)
  | cons o os ih =>
    intro new pos i hi hlen hsame
    cases new with
    | nil => simp at hlen
    | cons n ns =>
      have hlen' : os.length = ns.length := by simpa using hlen
      cases i with
      | zero =>
        have htails : os = ns := by
          apply List.ext_getElem hlen'
          intro j h1 h2
          have := hsame (j + 1) (by simpa using h1) (by omega)
          simpa using this
        subst htails
        simp only [xorChecksums, List.getElem_cons_zero, Nat.add_zero]
        by_cases hb : pos.testBit k
        · simp only [if_pos hb]
          apply Nat.eq_of_testBit_eq
          intro t
          simp only [Nat.testBit_xor]
          cases o.testBit t <;> cases n.testBit t <;>
            cases (xorChecksums k os (pos + 1)).testBit t <;> rfl
        · simp [if_neg hb]
      | succ i' =>
        have hhead : o = n := by
          have := hsame 0 (by simp) (by omega)
          simpa using this
        have hi' : i' < os.length := by simpa using hi
        have hrec := ih ns (pos + 1) i' hi' hlen'
          (fun j hj hne => by
            have := hsame (j + 1) (by simpa using hj) (by omega)
            simpa using this)
        simp only [xorChecksums, List.getElem_cons_succ]
        rw [hrec]
        have harith : pos + 1 + i' = pos + (i' + 1) := by omega
        rw [harith, hhead, Nat.xor_assoc]

/-! ### The `findErrorLocation` loop -/

theorem errorLocationLoop_eq_pos (expected : List Nat) (pos : Nat) :
    ∀ (stored : List Nat) (i acc : Nat)
      (hle : i + stored.length ≤ expected.length)
      (hacc : ∀ k, acc.testBit k = (pos.testBit k && decide (k < i)))
      (hdiff : ∀ m (hm : m < stored.length),
        (stored[m] ≠ expected[i + m]) ↔ pos.testBit (i + m))
      (hhigh : ∀ k, i + stored.length ≤ k → pos.testBit k = false),
      errorLocationLoop expected stored i acc = some pos := by
  intro stored
  induction stored with
  | nil =>
    intro i acc _ hacc _ hhigh
    show some acc = some pos
    congr 1
    apply Nat.eq_of_testBit_eq
    intro k
    rw [hacc k]
    by_cases hk : k < i
    · simp [hk]
    · rw [hhigh k (by simp only [List.length_nil]; omega)]
      simp
  | cons s ss ih =>
    intro i acc hlen hacc hdiff hhigh
    have hlen1 : i + 1 + ss.length ≤ expected.length := by
      simp only [List.length_cons] at hlen
      omega
    have hi : i < expected.length := by omega
    have he : expected[i]? = some (expected[i]) := List.getElem?_eq_getElem hi
    show (match expected[i]? with
      | none => none
      | some e => errorLocationLoop expected ss (i + 1)
          (if s ≠ e then acc ||| (1 <<< i) else acc)) = some pos
    rw [he]
    have hbit : (s ≠ expected[i]) ↔ pos.testBit i := by
      have := hdiff 0 (by simp)
      simpa using this
    have hacc1 : ∀ k,
        (if s ≠ expected[i] then acc ||| (1 <<< i) else acc).testBit k =
          (pos.testBit k && decide (k < i + 1)) := by
      intro k
      by_cases hd : s ≠ expected[i]
      · rw [if_pos hd]
        have hpb : pos.testBit i = true := hbit.mp hd
        rw [Nat.testBit_or, hacc k, Nat.one_shiftLeft, Nat.testBit_two_pow]
        by_cases hk : k = i
        · subst hk
          simp [hpb]
        · have h1 : ¬ (i = k) := fun hc => hk hc.symm
          simp only [decide_eq_false h1, Bool.or_false]
          by_cases hk2 : k < i
          · simp [hk2, show k < i + 1 by omega]
          · simp [hk2, show ¬ k < i + 1 by omega]
      · rw [if_neg hd]
        have hpb : pos.testBit i = false := by
          rw [← Bool.not_eq_true]
          intro hc
          exact hd (hbit.mpr hc)
        rw [hacc k]
        by_cases hk : k = i
        · subst hk
          simp [hpb]
        · by_cases hk2 : k < i
          · simp [hk2, show k < i + 1 by omega]
          · simp [hk2, show ¬ k < i + 1 by omega]
    have hdiff1 : ∀ m (hm : m < ss.length),
        (ss[m] ≠ expected[i + 1 + m]) ↔ pos.testBit (i + 1 + m) := by
      intro m hm
      have hstep := hdiff (m + 1) (by simp only [List.length_cons]; omega)
      simp only [List.getElem_cons_succ] at hstep
      have harith : i + 1 + m = i + (m + 1) := by omega
      simpa only [harith] using hstep
    have hhigh1 : ∀ k, i + 1 + ss.length ≤ k → pos.testBit k = false := by
      intro k hk
      apply hhigh
      simp only [List.length_cons]
      omega
    exact ih (i + 1) _ hlen1 hacc1 hdiff1 hhigh1

/-- If exactly one entry of the checksum vector changed (0-based index
`i`), decoding the stored parity code against the new vector localizes
position `i`. -/
theorem findErrorLocation_single_change (old new : List Nat) (i : Nat) (hi : i < old.length)
    (hlen : old.length = new.length)
    (hsame : ∀ j (hj : j < old.length), j ≠ i → old[j] = new[j])
    (hdiff : old[i] ≠ new[i]) :
    findErrorLocation new (calculateHammingCode old) = some (true, i) := by
  have hplen : (calculateHammingCode old).length = (calculateHammingCode new).length := by
    rw [calculateHammingCode_length, calculateHammingCode_length, hlen]
  have hd0 : old[i] ^^^ new[i] ≠ 0 := fun hc => hdiff (Nat.xor_eq_zero.mp hc)
  have hsynd : ∀ m (hm : m < (calculateHammingCode old).length),
      ((calculateHammingCode old)[m] ≠
        (calculateHammingCode new)[m]) ↔ (i + 1).testBit m := by
    intro m hm
    have hmo : m < log2OfXPlusOne old.length := by
      rw [calculateHammingCode_length] at hm
      exact hm
    have hmn : m < log2OfXPlusOne new.length := by
      rw [← hlen]
      exact hmo
    rw [calculateHammingCode_getElem old m hmo hm, calculateHammingCode_getElem new m hmn (by omega)]
    rw [xorChecksums_single_change m old new 1 i hi hlen hsame]
    have harith : 1 + i = i + 1 := by omega
    rw [harith]
    by_cases hb : (i + 1).testBit m
    · rw [if_pos hb]
      constructor
      · intro _
        exact hb
      · intro _
        intro hc
        exact hd0 (by
          have := (xor_ne_self_iff (a := xorChecksums m old 1)
            (d := old[i] ^^^ new[i]))
          rcases Decidable.em (old[i] ^^^ new[i] = 0) with h0 | h0
          · exact h0
          · exact absurd hc.symm (this.mpr h0))
    · rw [if_neg hb]
      simp [hb]
  have hloop := errorLocationLoop_eq_pos (calculateHammingCode new) (i + 1)
    (calculateHammingCode old) 0 0
    (by omega)
    (by intro k; simp)
    (by
      intro m hm
      have := hsynd m hm
      simpa using this)
    (by
      intro k hk
      simp only [Nat.zero_add] at hk
      rw [calculateHammingCode_length] at hk
      apply Nat.testBit_lt_two_pow
      have h1 : old.length < 2 ^ log2OfXPlusOne old.length := lt_two_pow_log2OfXPlusOne _
      have h2 : (2 : Nat) ^ log2OfXPlusOne old.length ≤ 2 ^ k := by
        apply Nat.pow_le_pow_right (by omega)
        exact hk
      omega)
  unfold findErrorLocation
  rw [hloop]
  have hle : ¬ (i + 1 = 0 ∨ i + 1 > new.length) := by
    push_neg
    constructor
    · omega
    · rw [← hlen]
      omega
  show (if i + 1 = 0 ∨ i + 1 > new.length then (some (false, 0) : Option (Bool × Nat))
    else some (true, i + 1 - 1)) = some (true, i)
  rw [if_neg hle]
  simp

/-! ### Order theory of `bytesLt` and the canonical sort -/

theorem bytesLt_irrefl (a : Bytes) : bytesLt a a = false := by
  induction a with
  | nil => rfl
  | cons x xs ih => simp [bytesLt, ih]

theorem bytesLt_trans {a b c : Bytes} (hab : bytesLt a b = true) (hbc : bytesLt b c = true) :
    bytesLt a c = true := by
  induction a generalizing b c with
  | nil =>
    cases b with
    | nil => cases hab
    | cons y ys =>
      cases c with
      | nil => cases hbc
      | cons z zs => rfl
  | cons x xs ih =>
    cases b with
    | nil => cases hab
    | cons y ys =>
      cases c with
      | nil => cases hbc
      | cons z zs =>
        simp only [bytesLt] at hab hbc ⊢
        by_cases hxy : x < y
        · by_cases hyz : y < z
          · simp [show x < z by omega]
          · by_cases hzy : z < y
            · simp [hyz, hzy] at hbc
            · have : y = z := by omega
              subst this
              simp [hxy]
        · by_cases hyx : y < x
          · simp [hxy, hyx] at hab
          · have hxyeq : x = y := by omega
            subst hxyeq
            by_cases hyz : x < z
            · simp [hyz]
            · by_cases hzy : z < x
              · simp [hyz, hzy] at hbc
              · have : x = z := by omega
                subst this
                simp only [hyz, hzy, if_false, Nat.lt_irrefl]
                simp only [hxy, if_false, Nat.lt_irrefl] at hab
                simp only [hyz, if_false, Nat.lt_irrefl] at hbc
                exact ih hab hbc

theorem bytesLt_trichotomy (a b : Bytes) :
    bytesLt a b = true ∨ a = b ∨ bytesLt b a = true := by
  induction a generalizing b with
  | nil =>
    cases b with
    | nil => right; left; rfl
    | cons y ys => left; rfl
  | cons x xs ih =>
    cases b with
    | nil => right; right; rfl
    | cons y ys =>
      by_cases hxy : x < y
      · left; simp [bytesLt, hxy]
      · by_cases hyx : y < x
        · right; right; simp [bytesLt, hyx]
        · have : x = y := by omega
          subst this
          rcases ih ys with h | h | h
          · left; simp [bytesLt, h]
          · right; left; rw [h]
          · right; right; simp [bytesLt, h]

theorem bytesLt_asymm {a b : Bytes} (h : bytesLt a b = true) : bytesLt b a = false := by
  by_contra hc
  rw [Bool.not_eq_false] at hc
  have := bytesLt_trans h hc
  rw [bytesLt_irrefl] at this
  cases this

theorem bytes_eq_of_not_lt {a b : Bytes} (h1 : ¬ bytesLt a b = true)
    (h2 : ¬ bytesLt b a = true) : a = b := by
  rcases bytesLt_trichotomy a b with h | h | h
  · exact absurd h h1
  · exact h
  · exact absurd h h2

/-- The strict name order on field infos. -/
def fieldLt (a b : fieldInfo) : Prop := bytesLt a.name b.name = true

instance : IsTotal fieldInfo fieldLe where
  total a b := by
    unfold fieldLe
    rcases bytesLt_trichotomy a.name b.name with h | h | h
    · left; rw [bytesLt_asymm h]; simp
    · left; rw [h, bytesLt_irrefl]; simp
    · right; rw [bytesLt_asymm h]; simp

instance : IsTrans fieldInfo fieldLe where
  trans a b c hab hbc := by
    unfold fieldLe at *
    intro hca
    rcases bytesLt_trichotomy a.name b.name with h | h | h
    · exact hbc (bytesLt_trans hca h)
    · rw [← h] at hbc
      exact hbc hca
    · exact hab h

instance : IsAntisymm fieldInfo fieldLt where
  antisymm a b hab hba := by
    unfold fieldLt at *
    rw [bytesLt_asymm hab] at hba
    cases hba

theorem sortFields_perm (l : List fieldInfo) : List.Perm (sortFields l) l :=
  List.perm_insertionSort fieldLe l

theorem sortFields_sorted (l : List fieldInfo) : List.Sorted fieldLe (sortFields l) :=
  List.sorted_insertionSort fieldLe l

/-- Strict sortedness only depends on the names. -/
theorem sorted_lt_iff_names {l : List fieldInfo} :
    List.Sorted fieldLt l ↔
      List.Pairwise (fun a b : Bytes => bytesLt a b = true) (l.map fieldInfo.name) := by
  rw [List.pairwise_map]
  rfl

/-- A name-sorted list with distinct names is strictly name-sorted. -/
theorem sorted_lt_of_sorted_le {l : List fieldInfo} (hs : List.Sorted fieldLe l)
    (hn : (l.map fieldInfo.name).Nodup) : List.Sorted fieldLt l := by
  have hn' : List.Pairwise (fun a b : fieldInfo => a.name ≠ b.name) l :=
    List.pairwise_map.mp hn
  have hcomb := List.Pairwise.and hs hn'
  apply hcomb.imp
  intro a b hab
  rcases hab with ⟨hle, hne⟩
  unfold fieldLe at hle
  unfold fieldLt
  rcases bytesLt_trichotomy a.name b.name with h | h | h
  · exact h
  · exact absurd h hne
  · exact absurd h hle

/-- With distinct names, any strictly sorted permutation is the result of
the canonical sort. -/
theorem sortFields_eq_of_perm_of_sorted {l m : List fieldInfo} (hp : List.Perm m l)
    (hs : List.Sorted fieldLt m) (hn : (l.map fieldInfo.name).Nodup) :
    sortFields l = m := by
  have hnodupSorted : ((sortFields l).map fieldInfo.name).Nodup :=
    hn.perm ((sortFields_perm l).map fieldInfo.name).symm
  exact List.eq_of_perm_of_sorted ((sortFields_perm l).trans hp.symm)
    (sorted_lt_of_sorted_le (sortFields_sorted l) hnodupSorted) hs

/-! ### Characterizing when `collectFields` succeeds -/

theorem collectFields_ok_map : ∀ {fs : List StructField} {tags : List Bytes}
    {infos : List fieldInfo}, collectFields fs tags = .ok infos →
    infos = fs.map fun f => { name := f.tag, fieldValue := f.value } := by
  intro fs
  induction fs with
  | nil =>
    intro tags infos h
    cases h
    rfl
  | cons f fs ih =>
    intro tags infos h
    simp only [collectFields] at h
    by_cases h1 : f.tag = []
    · rw [if_pos h1] at h; cases h
    · rw [if_neg h1] at h
      by_cases h2 : f.tag ∈ tags
      · rw [if_pos h2] at h; cases h
      · rw [if_neg h2] at h
        cases hrec : collectFields fs (f.tag :: tags) with
        | error e => rw [hrec] at h; cases h
        | ok rest =>
          rw [hrec] at h
          cases h
          simp [ih hrec]

theorem collectFields_isOk_iff (fs : List StructField) (tags : List Bytes) :
    (∃ infos, collectFields fs tags = .ok infos) ↔
      ((∀ f ∈ fs, f.tag ≠ [] ∧ f.tag ∉ tags) ∧ (fs.map StructField.tag).Nodup) := by
  induction fs generalizing tags with
  | nil => simp [collectFields]
  | cons f fs ih =>
    simp only [collectFields]
    by_cases h1 : f.tag = []
    · rw [if_pos h1]
      constructor
      · rintro ⟨infos, h⟩; cases h
      · rintro ⟨hall, -⟩
        exact absurd h1 (hall f (List.mem_cons_self f fs)).1
    · rw [if_neg h1]
      by_cases h2 : f.tag ∈ tags
      · rw [if_pos h2]
        constructor
        · rintro ⟨infos, h⟩; cases h
        · rintro ⟨hall, -⟩
          exact absurd h2 (hall f (List.mem_cons_self f fs)).2
      · rw [if_neg h2]
        cases hrec : collectFields fs (f.tag :: tags) with
        | error e =>
          constructor
          · rintro ⟨infos, h⟩; cases h
          · rintro ⟨hall, hnd⟩
            have htail : (∀ g ∈ fs, g.tag ≠ [] ∧ g.tag ∉ f.tag :: tags) ∧
                (fs.map StructField.tag).Nodup := by
              refine ⟨fun g hg => ⟨(hall g (List.mem_cons_of_mem f hg)).1, ?_⟩, ?_⟩
              · intro hmem
                rcases List.mem_cons.mp hmem with heq | hmem'
                · rw [List.map_cons] at hnd
                  have : g.tag ∈ fs.map StructField.tag := List.mem_map_of_mem _ hg
                  rw [heq] at this
                  exact (List.nodup_cons.mp hnd).1 this
                · exact (hall g (List.mem_cons_of_mem f hg)).2 hmem'
              · rw [List.map_cons] at hnd
                exact (List.nodup_cons.mp hnd).2
            obtain ⟨infos, hinfos⟩ := (ih (f.tag :: tags)).mpr htail
            rw [hinfos] at hrec
            cases hrec
        | ok rest =>
          constructor
          · rintro -
            have htail := (ih (f.tag :: tags)).mp ⟨rest, hrec⟩
            obtain ⟨hall, hnd⟩ := htail
            refine ⟨?_, ?_⟩
            · intro g hg
              rcases List.mem_cons.mp hg with heq | hmem
              · subst heq; exact ⟨h1, h2⟩
              · have := hall g hmem
                exact ⟨this.1, fun hc => this.2 (List.mem_cons_of_mem _ hc)⟩
            · rw [List.map_cons, List.nodup_cons]
              refine ⟨?_, hnd⟩
              intro hmem
              obtain ⟨g, hg, htag⟩ := List.mem_map.mp hmem
              exact (hall g hg).2 (htag ▸ List.mem_cons_self _ _)
          · rintro -
            exact ⟨_, rfl⟩

/-- C9: Structural-validity errors: `getFieldInfos` (and hence `HashStruct`
and `CompareHashStruct`) fails exactly when the argument is not a pointer,
points to a non-struct, some field has an empty/missing infohash tag, or a
tag value repeats; on failure `HashStruct` yields no fingerprint and
`CompareHashStruct` performs no comparison, both returning that error. -/
theorem C9_getFieldInfos_error_iff (obj : GoValue) :
    ((∃ e, getFieldInfos obj = .error e) ↔
      (obj = .nonPtr ∨ obj = .ptrToNonStruct ∨
        ∃ fields, obj = .ptrToStruct fields ∧
          ((∃ f ∈ fields, f.tag = []) ∨ ¬ (fields.map StructField.tag).Nodup))) ∧
    (∀ e, getFieldInfos obj = .error e →
      HashStruct obj = .error e ∧ ∀ eh, CompareHashStruct obj eh = .invalid e) := by
  constructor
  · cases obj with
    | nonPtr => simp [getFieldInfos]
    | ptrToNonStruct => simp [getFieldInfos]
    | ptrToStruct fields =>
      rw [getFieldInfos_ptrToStruct]
      have hiff := collectFields_isOk_iff fields []
      simp only [List.not_mem_nil, not_false_iff, and_true] at hiff
      constructor
      · intro ⟨e, he⟩
        right; right
        refine ⟨fields, rfl, ?_⟩
        by_contra hc
        push_neg at hc
        obtain ⟨infos, hinfos⟩ := hiff.mpr ⟨fun f hf => hc.1 f hf, hc.2⟩
        rw [hinfos] at he
        cases he
      · intro h
        rcases h with h | h | ⟨fields', heq, hbad⟩
        · cases h
        · cases h
        · have hff : fields' = fields := by injection heq.symm
          subst hff
          cases hcf : collectFields fields' [] with
          | error e => exact ⟨e, rfl⟩
          | ok infos =>
            exfalso
            have := hiff.mp ⟨infos, hcf⟩
            rcases hbad with ⟨f, hf, htag⟩ | hnd
            · exact (this.1 f hf) htag
            · exact hnd this.2
  · intro e he
    constructor
    · unfold HashStruct
      rw [he]
    · intro eh
      unfold CompareHashStruct
      rw [he]

/-- Witness for C9 at concrete invalid inputs. -/
theorem C9_getFieldInfos_error_iff_witness :
    HashStruct .nonPtr = .error "the object must be a pointer" ∧
      CompareHashStruct .nonPtr [] = .invalid "the object must be a pointer" :=
  ⟨((C9_getFieldInfos_error_iff .nonPtr).2 _ (by rfl)).1,
    ((C9_getFieldInfos_error_iff .nonPtr).2 _ (by rfl)).2 []⟩

/-- C8: Canonical-order invariant: records whose declared field lists are
permutations of each other (same tag-to-serialized-value association,
different declaration order) get identical field infos, identical
fingerprints from `HashStruct`, and identical `CompareHashStruct` results
on every stored hash. -/
theorem C8_canonical_order (fields₁ fields₂ : List StructField)
    (hp : List.Perm fields₁ fields₂) (infos : List fieldInfo)
    (hg : getFieldInfos (.ptrToStruct fields₁) = .ok infos) :
    getFieldInfos (.ptrToStruct fields₂) = .ok infos ∧
      HashStruct (.ptrToStruct fields₂) = HashStruct (.ptrToStruct fields₁) ∧
      ∀ eh, CompareHashStruct (.ptrToStruct fields₂) eh =
        CompareHashStruct (.ptrToStruct fields₁) eh := by
  have toInfo : StructField → fieldInfo := fun f => { name := f.tag, fieldValue := f.value }
  have hg2 : getFieldInfos (.ptrToStruct fields₂) = .ok infos := by
    rw [getFieldInfos_ptrToStruct] at hg ⊢
    cases hcf1 : collectFields fields₁ [] with
    | error e => rw [hcf1] at hg; cases hg
    | ok l₁ =>
      rw [hcf1] at hg
      have hinfos : infos = sortFields l₁ := by
        cases hg; rfl
      have hcond1 := (collectFields_isOk_iff fields₁ []).mp ⟨l₁, hcf1⟩
      have hcond2 : (∀ f ∈ fields₂, f.tag ≠ [] ∧ f.tag ∉ ([] : List Bytes)) ∧
          (fields₂.map StructField.tag).Nodup := by
        refine ⟨fun f hf => hcond1.1 f (hp.mem_iff.mpr hf), ?_⟩
        exact hcond1.2.perm (hp.map StructField.tag)
      obtain ⟨l₂, hcf2⟩ := (collectFields_isOk_iff fields₂ []).mpr hcond2
      rw [hcf2]
      have hl₁ := collectFields_ok_map hcf1
      have hl₂ := collectFields_ok_map hcf2
      have hpl : List.Perm l₂ l₁ := by
        rw [hl₁, hl₂]
        exact (hp.map _).symm
      have hnames₂ : (l₂.map fieldInfo.name).Nodup := by
        rw [hl₂, List.map_map]
        exact hcond2.2
      have hnames₁ : (l₁.map fieldInfo.name).Nodup := by
        rw [hl₁, List.map_map]
        exact hcond1.2
      have hsorted : List.Sorted fieldLt (sortFields l₁) :=
        sorted_lt_of_sorted_le (sortFields_sorted l₁)
          (hnames₁.perm ((sortFields_perm l₁).map fieldInfo.name).symm)
      have : sortFields l₂ = sortFields l₁ :=
        sortFields_eq_of_perm_of_sorted ((sortFields_perm l₁).trans hpl.symm) hsorted hnames₂
      show Except.ok (sortFields l₂) = Except.ok infos
      rw [this, hinfos]
  refine ⟨hg2, ?_, ?_⟩
  · rw [HashStruct_ok hg2, HashStruct_ok hg]
  · intro eh
    rw [CompareHashStruct_ok hg2 eh, CompareHashStruct_ok hg eh]

/-- Witness for C8 at a concrete two-field record in both orders. -/
theorem C8_canonical_order_witness :
    getFieldInfos (.ptrToStruct [{ tag := [98], value := [2] }, { tag := [97], value := [1] }]) =
        .ok [{ name := [97], fieldValue := [1] }, { name := [98], fieldValue := [2] }] ∧
      HashStruct (.ptrToStruct [{ tag := [98], value := [2] }, { tag := [97], value := [1] }]) =
        HashStruct (.ptrToStruct [{ tag := [97], value := [1] }, { tag := [98], value := [2] }]) ∧
      ∀ eh, CompareHashStruct
          (.ptrToStruct [{ tag := [98], value := [2] }, { tag := [97], value := [1] }]) eh =
        CompareHashStruct
          (.ptrToStruct [{ tag := [97], value := [1] }, { tag := [98], value := [2] }]) eh :=
  C8_canonical_order [{ tag := [97], value := [1] }, { tag := [98], value := [2] }]
    [{ tag := [98], value := [2] }, { tag := [97], value := [1] }]
    (by decide) [{ name := [97], fieldValue := [1] }, { name := [98], fieldValue := [2] }]
    (by rfl)

/-! ### The parity words round-trip through the codec -/

theorem fnv32Write_lt {h : Nat} (data : Bytes) (hh : h < 2 ^ 32) :
    fnv32Write h data < 2 ^ 32 := by
  induction data generalizing h with
  | nil => exact hh
  | cons b bs ih =>
    apply ih
    exact Nat.mod_lt _ (by norm_num)

theorem fieldChecksum_lt (info : fieldInfo) : fieldChecksum info < 2 ^ 32 :=
  fnv32Write_lt _ (by norm_num [fnv32Offset])

theorem getHashes_snd_lt (infos : List fieldInfo) :
    ∀ c ∈ (getHashes infos).2, c < 2 ^ 32 := by
  intro c hc
  simp only [getHashes, List.mem_map] at hc
  obtain ⟨info, _, hinfo⟩ := hc
  rw [← hinfo]
  exact fieldChecksum_lt info

theorem xorChecksums_lt (k : Nat) (fields : List Nat) (pos : Nat)
    (hf : ∀ c ∈ fields, c < 2 ^ 32) : xorChecksums k fields pos < 2 ^ 32 := by
  induction fields generalizing pos with
  | nil => norm_num [xorChecksums]
  | cons f fs ih =>
    show (if pos.testBit k then f else 0) ^^^ xorChecksums k fs (pos + 1) < 2 ^ 32
    apply Nat.xor_lt_two_pow
    · by_cases hb : pos.testBit k
      · rw [if_pos hb]; exact hf f (List.mem_cons_self f fs)
      · rw [if_neg hb]; norm_num
    · exact ih (pos + 1) (fun c hc => hf c (List.mem_cons_of_mem f hc))

theorem calculateHammingCode_mem_lt (fields : List Nat) (hf : ∀ c ∈ fields, c < 2 ^ 32) :
    ∀ w ∈ calculateHammingCode fields, w < 2 ^ 32 := by
  intro w hw
  obtain ⟨m, hm, hval⟩ := List.getElem_of_mem hw
  have hm' : m < log2OfXPlusOne fields.length := by
    rw [calculateHammingCode_length] at hm
    exact hm
  rw [calculateHammingCode_getElem fields m hm'] at hval
  rw [← hval]
  exact xorChecksums_lt m fields 1 hf

theorem uint32Slice_roundtrip (ws : List Nat) (hws : ∀ w ∈ ws, w < 2 ^ 32) :
    uint32SliceFromByteSlice (uint32SliceToByteSlice ws) = ws := by
  induction ws with
  | nil => rfl
  | cons w ws ih =>
    show (w % 2 ^ 8 + w / 2 ^ 8 % 2 ^ 8 * 2 ^ 8 + w / 2 ^ 16 % 2 ^ 8 * 2 ^ 16 +
        w / 2 ^ 24 % 2 ^ 8 * 2 ^ 24) :: uint32SliceFromByteSlice (uint32SliceToByteSlice ws) =
      w :: ws
    rw [ih (fun x hx => hws x (List.mem_cons_of_mem w hx))]
    congr 1
    have hw : w < 2 ^ 32 := hws w (List.mem_cons_self w ws)
    have h8 : (2 : Nat) ^ 8 = 256 := rfl
    have h16 : (2 : Nat) ^ 16 = 65536 := rfl
    have h24 : (2 : Nat) ^ 24 = 16777216 := rfl
    have h32 : (2 : Nat) ^ 32 = 4294967296 := rfl
    rw [h8, h16, h24]
    rw [h32] at hw
    omega

theorem drop_8_hashInfo (infos : List fieldInfo) :
    List.drop 8 (hashInfo infos) =
      uint32SliceToByteSlice (calculateHammingCode (getHashes infos).2) := by
  rw [hashInfo_def]
  exact List.drop_left' (by rfl)

/-! ### Replacing one element of a uniquely-named list commutes with the sort -/

theorem eraseIdx_eq_erase_of_nodup {α : Type} [DecidableEq α] (l : List α) (j : Nat)
    (hj : j < l.length) (hnd : l.Nodup) : l.eraseIdx j = l.erase (l[j]) := by
  induction l generalizing j with
  | nil => exact absurd hj (by simp)
  | cons a l ih =>
    cases j with
    | zero => simp
    | succ j =>
      have hj' : j < l.length := by simpa using hj
      have hnd' := List.nodup_cons.mp hnd
      have hne : ¬ (a == l[j]) = true := by
        simp only [beq_iff_eq]
        intro hc
        exact hnd'.1 (hc ▸ l.getElem_mem hj')
      show a :: l.eraseIdx j = (a :: l).erase ((a :: l)[j + 1])
      rw [List.getElem_cons_succ, List.erase_cons_tail hne, ih j hj' hnd'.2]

theorem set_perm_cons_eraseIdx {α : Type} (l : List α) (j : Nat) (hj : j < l.length) (x : α) :
    List.Perm (l.set j x) (x :: l.eraseIdx j) := by
  induction l generalizing j with
  | nil => exact absurd hj (by simp)
  | cons a l ih =>
    cases j with
    | zero => exact List.Perm.refl _
    | succ j =>
      have hj' : j < l.length := by simpa using hj
      show List.Perm (a :: l.set j x) (x :: a :: l.eraseIdx j)
      exact ((ih j hj').cons a).trans (List.Perm.swap x a _)

theorem map_name_set_eq (infos : List fieldInfo) (k : Nat) (hk : k < infos.length)
    (x' : fieldInfo) (hname : x'.name = (infos[k]).name) :
    (infos.set k x').map fieldInfo.name = infos.map fieldInfo.name := by
  apply List.ext_getElem (by simp)
  intro m h1 h2
  have hm : m < infos.length := by simpa using h2
  rw [List.getElem_map, List.getElem_map, List.getElem_set]
  by_cases hkm : k = m
  · subst hkm
    rw [if_pos rfl, hname]
  · rw [if_neg hkm]

theorem sorted_lt_of_names_eq {l m : List fieldInfo}
    (h : l.map fieldInfo.name = m.map fieldInfo.name) (hs : List.Sorted fieldLt l) :
    List.Sorted fieldLt m := by
  rw [sorted_lt_iff_names] at hs ⊢
  rw [← h]
  exact hs

/-- Replacing the value (but not the name) of the entry at index `j` of a
uniquely-named list replaces, after the canonical sort, exactly the entry
at that name's sorted position `k`. -/
theorem sortFields_set {l : List fieldInfo} {j : Nat} (hj : j < l.length) {x' : fieldInfo}
    (hn : (l.map fieldInfo.name).Nodup) (hname : x'.name = (l[j]).name) :
    ∃ (k : Nat) (hk : k < (sortFields l).length),
      (sortFields l)[k] = l[j] ∧ sortFields (l.set j x') = (sortFields l).set k x' := by
  have hnd_l : l.Nodup := hn.of_map
  have hmem : l[j] ∈ sortFields l := (sortFields_perm l).mem_iff.mpr (l.getElem_mem hj)
  obtain ⟨k, hk, hkx⟩ := List.getElem_of_mem hmem
  refine ⟨k, hk, hkx, ?_⟩
  have hnd_s : (sortFields l).Nodup := hnd_l.perm (sortFields_perm l).symm
  have hnames_s : ((sortFields l).map fieldInfo.name).Nodup :=
    hn.perm ((sortFields_perm l).map fieldInfo.name).symm
  apply sortFields_eq_of_perm_of_sorted
  · have p1 : List.Perm ((sortFields l).set k x') (x' :: (sortFields l).eraseIdx k) :=
      set_perm_cons_eraseIdx _ k hk x'
    have p2 : List.Perm (l.set j x') (x' :: l.eraseIdx j) :=
      set_perm_cons_eraseIdx _ j hj x'
    have e1 : (sortFields l).eraseIdx k = (sortFields l).erase (l[j]) := by
      rw [eraseIdx_eq_erase_of_nodup _ k hk hnd_s, hkx]
    have e2 : l.eraseIdx j = l.erase (l[j]) := eraseIdx_eq_erase_of_nodup _ j hj hnd_l
    have p3 : List.Perm ((sortFields l).erase (l[j])) (l.erase (l[j])) :=
      (sortFields_perm l).erase _
    rw [e1] at p1
    rw [e2] at p2
    exact (p1.trans ((p3.cons x').trans p2.symm))
  · have hst : List.Sorted fieldLt (sortFields l) :=
      sorted_lt_of_sorted_le (sortFields_sorted l) hnames_s
    apply sorted_lt_of_names_eq
      (map_name_set_eq (sortFields l) k hk x' (by rw [hkx, hname])).symm hst
  · rw [map_name_set_eq l j hj x' hname]
    exact hn

theorem getFieldInfos_ok_elim {fields : List StructField} {infos : List fieldInfo}
    (h : getFieldInfos (.ptrToStruct fields) = .ok infos) :
    infos = sortFields (fields.map fun f => { name := f.tag, fieldValue := f.value }) ∧
      ((fields.map fun f =>
        ({ name := f.tag, fieldValue := f.value } : fieldInfo)).map fieldInfo.name).Nodup := by
  rw [getFieldInfos_ptrToStruct] at h
  cases hcf : collectFields fields [] with
  | error e => rw [hcf] at h; cases h
  | ok l =>
    rw [hcf] at h
    have hi : infos = sortFields l := by cases h; rfl
    have hl := collectFields_ok_map hcf
    have hcond := (collectFields_isOk_iff fields []).mp ⟨l, hcf⟩
    refine ⟨by rw [hi, hl], ?_⟩
    rw [List.map_map]
    exact hcond.2

/-- C1 (amended): single-field localization: mutating exactly one field of
a well-formed record to a new serialized value whose 32-bit field checksum
differs and whose record-level 64-bit full checksum differs, then
comparing against the original fingerprint, names exactly that field's
tag in the returned `FieldChangedError`. -/
theorem C1_single_field_localization
    (fields : List StructField) (j : Nat) (hj : j < fields.length) (v' : Bytes)
    (infos infos' : List fieldInfo) (h : Bytes)
    (hg : getFieldInfos (.ptrToStruct fields) = .ok infos)
    (hh : HashStruct (.ptrToStruct fields) = .ok h)
    (hg' : getFieldInfos (.ptrToStruct (fields.set j
      { tag := (fields[j]).tag, value := v' })) = .ok infos')
    (hcs : fieldChecksum { name := (fields[j]).tag, fieldValue := v' } ≠
      fieldChecksum { name := (fields[j]).tag, fieldValue := (fields[j]).value })
    (hfull : (getHashes infos').1 ≠ (getHashes infos).1) :
    CompareHashStruct
        (.ptrToStruct (fields.set j { tag := (fields[j]).tag, value := v' })) h =
      .ok (some { Field := (fields[j]).tag }) := by
  obtain ⟨hinfos, hn⟩ := getFieldInfos_ok_elim hg
  obtain ⟨hinfos', _⟩ := getFieldInfos_ok_elim hg'
  have hlj : j < (fields.map fun f =>
      ({ name := f.tag, fieldValue := f.value } : fieldInfo)).length := by
    simpa using hj
  have hname : ({ name := (fields[j]).tag, fieldValue := v' } : fieldInfo).name =
      (((fields.map fun f => ({ name := f.tag, fieldValue := f.value } : fieldInfo)))[j]).name := by
    rw [List.getElem_map]
  obtain ⟨k, hk, hkeq, hset⟩ := sortFields_set hlj hn hname
  have hinfos'2 : infos' = infos.set k { name := (fields[j]).tag, fieldValue := v' } := by
    rw [hinfos']
    rw [List.map_set]
    rw [hset, ← hinfos]
  have hkinfos : k < infos.length := by rw [hinfos]; exact hk
  have hinfosk : infos[k] =
      { name := (fields[j]).tag, fieldValue := (fields[j]).value } := by
    have : infos[k] = (sortFields (fields.map fun f =>
        ({ name := f.tag, fieldValue := f.value } : fieldInfo)))[k] := by
      simp only [hinfos]
    rw [this, hkeq, List.getElem_map]
  -- the old and new checksum vectors differ exactly at position k
  have hmapset : (getHashes infos').2 =
      ((getHashes infos).2).set k
        (fieldChecksum { name := (fields[j]).tag, fieldValue := v' }) := by
    show infos'.map fieldChecksum = (infos.map fieldChecksum).set k _
    rw [hinfos'2, List.map_set]
  have hkcs : k < (getHashes infos).2.length := by
    rw [getHashes_snd_length]
    exact hkinfos
  have hlencs : (getHashes infos).2.length = (getHashes infos').2.length := by
    rw [hmapset, List.length_set]
  have hfind : findErrorLocation (getHashes infos').2
      (calculateHammingCode (getHashes infos).2) = some (true, k) := by
    apply findErrorLocation_single_change _ _ k hkcs hlencs
    · intro m hm hmk
      simp only [hmapset]
      rw [List.getElem_set, if_neg (fun hc => hmk hc.symm)]
    · have hold : (getHashes infos).2[k] =
          fieldChecksum { name := (fields[j]).tag, fieldValue := (fields[j]).value } := by
        show (infos.map fieldChecksum)[k] = _
        rw [List.getElem_map]
        rw [hinfosk]
      have hnew : (getHashes infos').2[k] =
          fieldChecksum { name := (fields[j]).tag, fieldValue := v' } := by
        simp only [hmapset]
        rw [List.getElem_set, if_pos rfl]
      rw [hold, hnew]
      exact fun hc => hcs hc.symm
  -- assemble the comparison
  have hh' : h = hashInfo infos := by
    have := HashStruct_ok hg
    rw [this] at hh
    exact ((Except.ok.injEq _ _).mp hh).symm
  subst hh'
  rw [CompareHashStruct_ok hg']
  have h8 : ¬ (hashInfo infos).length < 8 := by
    rw [hashInfo_length]
    omega
  have hdec : uint64FromSlice (hashInfo infos) = (getHashes infos).1 := by
    rw [hashInfo_def]
    exact uint64FromSlice_uint64ToSlice_append _ (getHashes_fst_lt infos) _
  have hfullne : ¬ uint64FromSlice (hashInfo infos) = (getHashes infos').1 := by
    rw [hdec]
    exact fun hc => hfull hc.symm
  rw [if_neg h8, if_neg hfullne]
  have hdrop : uint32SliceFromByteSlice (List.drop 8 (hashInfo infos)) =
      calculateHammingCode (getHashes infos).2 := by
    rw [drop_8_hashInfo]
    exact uint32Slice_roundtrip _ (calculateHammingCode_mem_lt _ (getHashes_snd_lt infos))
  rw [hdrop, hfind]
  have hkinfos' : k < infos'.length := by
    rw [hinfos'2, List.length_set]
    exact hkinfos
  have hgetk : infos'[k]? = some { name := (fields[j]).tag, fieldValue := v' } := by
    rw [List.getElem?_eq_getElem hkinfos']
    congr 1
    simp only [hinfos'2]
    rw [List.getElem_set, if_pos rfl]
  show (match infos'[k]? with
    | none => Outcome.crash
    | some f => Outcome.ok (some { Field := f.name })) =
      .ok (some { Field := (fields[j]).tag })
  rw [hgetk]

/-! ### When the comparison loop stays in bounds -/

theorem errorLocationLoop_isSome (expected : List Nat) :
    ∀ (stored : List Nat) (i acc : Nat), i + stored.length ≤ expected.length →
      ∃ r, errorLocationLoop expected stored i acc = some r := by
  intro stored
  induction stored with
  | nil => intro i acc _; exact ⟨acc, rfl⟩
  | cons s ss ih =>
    intro i acc hle
    have hi : i < expected.length := by
      simp only [List.length_cons] at hle
      omega
    have he : expected[i]? = some (expected[i]) := List.getElem?_eq_getElem hi
    show (∃ r, (match expected[i]? with
      | none => none
      | some e => errorLocationLoop expected ss (i + 1)
          (if s ≠ e then acc ||| (1 <<< i) else acc)) = some r)
    rw [he]
    apply ih
    simp only [List.length_cons] at hle
    omega

theorem errorLocationLoop_isNone (expected : List Nat) :
    ∀ (stored : List Nat) (i acc : Nat), stored ≠ [] →
      expected.length < i + stored.length →
      errorLocationLoop expected stored i acc = none := by
  intro stored
  induction stored with
  | nil => intro i acc hne _; exact absurd rfl hne
  | cons s ss ih =>
    intro i acc _ hlt
    show (match expected[i]? with
      | none => none
      | some e => errorLocationLoop expected ss (i + 1)
          (if s ≠ e then acc ||| (1 <<< i) else acc)) = none
    by_cases hi : i < expected.length
    · have he : expected[i]? = some (expected[i]) := List.getElem?_eq_getElem hi
      rw [he]
      have hss : ss ≠ [] := by
        intro hc
        subst hc
        simp only [List.length_cons, List.length_nil] at hlt
        omega
      apply ih _ _ hss
      simp only [List.length_cons] at hlt
      omega
    · have he : expected[i]? = none := by
        rw [List.getElem?_eq_none_iff]
        omega
      rw [he]

theorem uint32SliceFromByteSlice_length (s : Bytes) :
    (uint32SliceFromByteSlice s).length = s.length / 4 := by
  induction s using uint32SliceFromByteSlice.induct with
  | case1 b0 b1 b2 b3 rest ih =>
    show (uint32SliceFromByteSlice (b0 :: b1 :: b2 :: b3 :: rest)).length = _
    simp only [uint32SliceFromByteSlice, List.length_cons, ih]
    omega
  | case2 s hs =>
    match s, hs with
    | [], _ => rfl
    | [b0], _ => simp [uint32SliceFromByteSlice]
    | [b0, b1], _ => simp [uint32SliceFromByteSlice]
    | [b0, b1, b2], _ => simp [uint32SliceFromByteSlice]
    | b0 :: b1 :: b2 :: b3 :: rest, hs => exact absurd rfl (hs b0 b1 b2 b3 rest)

theorem findErrorLocation_found_lt {fields hc : List Nat} {loc : Nat}
    (h : findErrorLocation fields hc = some (true, loc)) : loc < fields.length := by
  unfold findErrorLocation at h
  cases hr : errorLocationLoop (calculateHammingCode fields) hc 0 0 with
  | none => rw [hr] at h; cases h
  | some r =>
    rw [hr] at h
    have h' : (if r = 0 ∨ r > fields.length then (some (false, 0) : Option (Bool × Nat))
        else some (true, r - 1)) = some (true, loc) := h
    by_cases hc2 : r = 0 ∨ r > fields.length
    · rw [if_pos hc2] at h'
      simp at h'
    · rw [if_neg hc2] at h'
      push_neg at hc2
      have : r - 1 = loc := by
        have := (Option.some.injEq _ _).mp h'
        exact (Prod.mk.injEq .. |>.mp this).2
      omega

/-- When the stored hash is at least 8 bytes, carries no more parity words
than the record calls for, and its full checksum mismatches, the result is
always a `FieldChangedError`. -/
theorem CompareHashStruct_mismatch_result (obj : GoValue) (infos : List fieldInfo) (eh : Bytes)
    (hg : getFieldInfos obj = .ok infos) (hlen : 8 ≤ eh.length)
    (hcount : (eh.length - 8) / 4 ≤ Nat.clog 2 (infos.length + 1))
    (hfull : uint64FromSlice eh ≠ (getHashes infos).1) :
    ∃ e : FieldChangedError, CompareHashStruct obj eh = .ok (some e) := by
  rw [CompareHashStruct_ok hg eh]
  rw [if_neg (by omega), if_neg hfull]
  have hstlen : (uint32SliceFromByteSlice (List.drop 8 eh)).length = (eh.length - 8) / 4 := by
    rw [uint32SliceFromByteSlice_length, List.length_drop]
  have hexplen : (calculateHammingCode (getHashes infos).2).length =
      Nat.clog 2 (infos.length + 1) := by
    rw [calculateHammingCode_length, getHashes_snd_length, log2OfXPlusOne_eq_clog]
  obtain ⟨r, hr⟩ := errorLocationLoop_isSome (calculateHammingCode (getHashes infos).2)
    (uint32SliceFromByteSlice (List.drop 8 eh)) 0 0 (by rw [hstlen, hexplen]; omega)
  cases hf : findErrorLocation (getHashes infos).2 (uint32SliceFromByteSlice (List.drop 8 eh)) with
  | none =>
    exfalso
    unfold findErrorLocation at hf
    rw [hr] at hf
    have hf' : (if r = 0 ∨ r > (getHashes infos).2.length
        then (some (false, 0) : Option (Bool × Nat)) else some (true, r - 1)) = none := hf
    by_cases hc2 : r = 0 ∨ r > (getHashes infos).2.length
    · rw [if_pos hc2] at hf'; cases hf'
    · rw [if_neg hc2] at hf'; cases hf'
  | some p =>
    obtain ⟨b, loc⟩ := p
    cases b with
    | false => exact ⟨{ Field := [] }, rfl⟩
    | true =>
      have hloc : loc < infos.length := by
        have := findErrorLocation_found_lt hf
        rw [getHashes_snd_length] at this
        exact this
      refine ⟨{ Field := (infos[loc]).name }, ?_⟩
      show (match infos[loc]? with
        | none => Outcome.crash
        | some f => Outcome.ok (some { Field := f.name })) = _
      rw [List.getElem?_eq_getElem hloc]

/-- When the stored hash is at least 8 bytes, its full checksum
mismatches, and it carries more parity words than recomputed, the loop in
`findErrorLocation` indexes the recomputed code out of range: a panic. -/
theorem CompareHashStruct_crash_of (obj : GoValue) (infos : List fieldInfo) (eh : Bytes)
    (hg : getFieldInfos obj = .ok infos) (h8 : ¬ eh.length < 8)
    (hfull : uint64FromSlice eh ≠ (getHashes infos).1)
    (hcount : Nat.clog 2 (infos.length + 1) < (eh.length - 8) / 4) :
    CompareHashStruct obj eh = .crash := by
  rw [CompareHashStruct_ok hg eh, if_neg h8, if_neg hfull]
  have hnone : findErrorLocation (getHashes infos).2
      (uint32SliceFromByteSlice (List.drop 8 eh)) = none := by
    unfold findErrorLocation
    rw [errorLocationLoop_isNone _ _ 0 0 ?ne ?lt]
    case ne =>
      intro hc
      have := congrArg List.length hc
      rw [uint32SliceFromByteSlice_length, List.length_drop] at this
      simp only [List.length_nil] at this
      omega
    case lt =>
      rw [uint32SliceFromByteSlice_length, List.length_drop,
        calculateHammingCode_length, getHashes_snd_length, log2OfXPlusOne_eq_clog]
      omega
  rw [hnone]

/-- C7 (amended): for a well-formed record and a stored hash of at least 8
bytes, `CompareHashStruct` returns nil exactly when the recomputed full
checksum equals the little-endian value of the hash's first 8 bytes; on
mismatch the result is a `FieldChangedError` provided the stored hash's
parity-word count does not exceed the recomputed one (otherwise the code
panics rather than returning). -/
theorem C7_full_checksum_decides (obj : GoValue) (infos : List fieldInfo) (eh : Bytes)
    (hg : getFieldInfos obj = .ok infos) (hlen : 8 ≤ eh.length) :
    (CompareHashStruct obj eh = .ok none ↔ uint64FromSlice eh = (getHashes infos).1) ∧
      ((eh.length - 8) / 4 ≤ Nat.clog 2 (infos.length + 1) →
        uint64FromSlice eh ≠ (getHashes infos).1 →
        ∃ e : FieldChangedError, CompareHashStruct obj eh = .ok (some e)) := by
  by_cases hfull : uint64FromSlice eh = (getHashes infos).1
  · have hok : CompareHashStruct obj eh = .ok none := by
      rw [CompareHashStruct_ok hg eh, if_neg (by omega), if_pos hfull]
    rw [hok]
    exact ⟨iff_of_true rfl hfull, fun _ hc => absurd hfull hc⟩
  · by_cases hcount : (eh.length - 8) / 4 ≤ Nat.clog 2 (infos.length + 1)
    · obtain ⟨e, he⟩ := CompareHashStruct_mismatch_result obj infos eh hg hlen hcount hfull
      rw [he]
      exact ⟨iff_of_false (by simp) hfull, fun _ _ => ⟨e, rfl⟩⟩
    · have hcrash := CompareHashStruct_crash_of obj infos eh hg (by omega) hfull (by omega)
      rw [hcrash]
      exact ⟨iff_of_false (by simp) hfull, fun hc _ => absurd hc hcount⟩

/-- Witness for C7 at a concrete record and stored hash. -/
theorem C7_full_checksum_decides_witness :
    (CompareHashStruct (.ptrToStruct [{ tag := [97], value := [1] }])
        (hashInfo [{ name := [97], fieldValue := [1] }]) = .ok none ↔
      uint64FromSlice (hashInfo [{ name := [97], fieldValue := [1] }]) =
        (getHashes [{ name := [97], fieldValue := [1] }]).1) ∧
      (((hashInfo [{ name := [97], fieldValue := [1] }]).length - 8) / 4 ≤
          Nat.clog 2 (([{ name := [97], fieldValue := [1] }] : List fieldInfo).length + 1) →
        uint64FromSlice (hashInfo [{ name := [97], fieldValue := [1] }]) ≠
          (getHashes [{ name := [97], fieldValue := [1] }]).1 →
        ∃ e : FieldChangedError,
          CompareHashStruct (.ptrToStruct [{ tag := [97], value := [1] }])
            (hashInfo [{ name := [97], fieldValue := [1] }]) = .ok (some e)) :=
  C7_full_checksum_decides (.ptrToStruct [{ tag := [97], value := [1] }])
    [{ name := [97], fieldValue := [1] }] (hashInfo [{ name := [97], fieldValue := [1] }])
    (by rfl) (by decide)

/-- C10 (amended): `CompareHashStruct` performs no length validation:
with a well-formed record it panics exactly when the stored hash is
shorter than 8 bytes, or when the full checksums differ and the stored
parity-word count `(len-8)/4` (trailing bytes are dropped) exceeds the
recomputed count; and whenever `findErrorLocation` finds a location, that
location is below the field count, so the field lookup is in bounds. -/
theorem C10_compare_crash_iff (obj : GoValue) (infos : List fieldInfo) (eh : Bytes)
    (hg : getFieldInfos obj = .ok infos) :
    (CompareHashStruct obj eh = .crash ↔
      (eh.length < 8 ∨ (uint64FromSlice eh ≠ (getHashes infos).1 ∧
        Nat.clog 2 (infos.length + 1) < (eh.length - 8) / 4))) ∧
      (∀ loc, findErrorLocation (getHashes infos).2
          (uint32SliceFromByteSlice (List.drop 8 eh)) = some (true, loc) →
        loc < infos.length) := by
  constructor
  · by_cases h8 : eh.length < 8
    · have hcrash : CompareHashStruct obj eh = .crash := by
        rw [CompareHashStruct_ok hg eh, if_pos h8]
      rw [hcrash]
      exact iff_of_true rfl (Or.inl h8)
    · by_cases hfull : uint64FromSlice eh = (getHashes infos).1
      · have hok : CompareHashStruct obj eh = .ok none := by
          rw [CompareHashStruct_ok hg eh, if_neg h8, if_pos hfull]
        rw [hok]
        apply iff_of_false (by simp)
        rintro (hc | ⟨hne, -⟩)
        · exact h8 hc
        · exact hne hfull
      · by_cases hcount : (eh.length - 8) / 4 ≤ Nat.clog 2 (infos.length + 1)
        · obtain ⟨e, he⟩ := CompareHashStruct_mismatch_result obj infos eh hg
            (by omega) hcount hfull
          rw [he]
          apply iff_of_false (by simp)
          rintro (hc | ⟨-, hlt⟩)
          · exact h8 hc
          · omega
        · have hcrash := CompareHashStruct_crash_of obj infos eh hg h8 hfull (by omega)
          rw [hcrash]
          exact iff_of_true rfl (Or.inr ⟨hfull, by omega⟩)
  · intro loc hloc
    have := findErrorLocation_found_lt hloc
    rw [getHashes_snd_length] at this
    exact this

/-! ### C4: the field hasher concatenates identifier and value bytes -/

/-- C4 (amended): the identifier bytes are not length-prefixed or
delimited: each field's hash input stream is the plain concatenation
`identifier ++ serialized value`, so field lists whose per-field
concatenated streams coincide receive identical hash inputs and produce
identical full and per-field checksums. -/
theorem C4_no_delimiter (infos₁ infos₂ : List fieldInfo)
    (h : infos₁.map fieldStream = infos₂.map fieldStream) :
    getHashes infos₁ = getHashes infos₂ := by
  unfold getHashes
  congr 1
  · rw [← List.foldl_map fieldStream fnv64Write, ← List.foldl_map fieldStream fnv64Write, h]
  · have hmap : ∀ (l : List fieldInfo),
        l.map fieldChecksum = (l.map fieldStream).map (fnv32Write fnv32Offset) := by
      intro l
      rw [List.map_map]
      rfl
    rw [hmap, hmap, h]

/-- Witness for C4 (amended) at the spec's own example: identifier "AB"
with value "C" versus identifier "A" with value "BC". -/
theorem C4_no_delimiter_witness :
    getHashes [{ name := [65, 66], fieldValue := [67] }] =
      getHashes [{ name := [65], fieldValue := [66, 67] }] :=
  C4_no_delimiter _ _ (by decide)

/-- Counterexample to C4 as stated: the two distinct fields receive the
same hash input stream and collide on both checksums. -/
theorem C4_counterexample :
    ({ name := [65, 66], fieldValue := [67] } : fieldInfo) ≠
        { name := [65], fieldValue := [66, 67] } ∧
      fieldStream { name := [65, 66], fieldValue := [67] } =
        fieldStream { name := [65], fieldValue := [66, 67] } ∧
      getHashes [{ name := [65, 66], fieldValue := [67] }] =
        getHashes [{ name := [65], fieldValue := [66, 67] }] :=
  ⟨by decide, by decide, by decide⟩

/-! ### Concrete instances for the comparison claims -/

/-- Witness for C1 (amended): a two-field record whose second field (tag
"b") is mutated; the comparison names exactly that tag. -/
theorem C1_single_field_localization_witness :
    CompareHashStruct
        (.ptrToStruct [{ tag := [97], value := [1] }, { tag := [98], value := [9] }])
        (hashInfo [{ name := [97], fieldValue := [1] }, { name := [98], fieldValue := [2] }]) =
      .ok (some { Field := [98] }) :=
  C1_single_field_localization
    [{ tag := [97], value := [1] }, { tag := [98], value := [2] }] 1 (by decide) [9]
    [{ name := [97], fieldValue := [1] }, { name := [98], fieldValue := [2] }]
    [{ name := [97], fieldValue := [1] }, { name := [98], fieldValue := [9] }]
    (hashInfo [{ name := [97], fieldValue := [1] }, { name := [98], fieldValue := [2] }])
    (by rfl) (by rfl) (by rfl) (by decide) (by decide)

/-- Counterexample to C1 as stated: a single field (tag "a") is mutated to
a genuinely different serialized value, yet the two values collide on the
32-bit FNV-1a field checksum, so the syndrome is zero and the comparison
reports an unlocalizable change (empty `Field`) instead of naming "a". -/
theorem C1_counterexample :
    ([110, 121, 118, 103, 104, 119, 104, 111, 98, 119] : Bytes) ≠
        [99, 101, 113, 115, 116, 100, 117, 99, 106, 109] ∧
      HashStruct (.ptrToStruct
          [{ tag := [97], value := [110, 121, 118, 103, 104, 119, 104, 111, 98, 119] }]) =
        .ok (hashInfo
          [{ name := [97], fieldValue := [110, 121, 118, 103, 104, 119, 104, 111, 98, 119] }]) ∧
      CompareHashStruct (.ptrToStruct
          [{ tag := [97], value := [99, 101, 113, 115, 116, 100, 117, 99, 106, 109] }])
          (hashInfo
            [{ name := [97], fieldValue := [110, 121, 118, 103, 104, 119, 104, 111, 98, 119] }]) =
        .ok (some { Field := [] }) :=
  ⟨by decide, by rfl, by decide⟩

/-- C2: evaluating the code at the failing input: in a three-field record
(tags "a" < "b" < "c") the fields at sorted positions 1 and 2 ("a" and
"b") are both mutated; the syndrome decodes to position 3, so the
comparison blames the unchanged field "c" instead of returning an empty
`Field`, contradicting the code's own documentation and the claim. -/
theorem C2_wrong_field_blamed :
    HashStruct (.ptrToStruct [{ tag := [97], value := [1] }, { tag := [98], value := [2] },
        { tag := [99], value := [3] }]) =
      .ok (hashInfo [{ name := [97], fieldValue := [1] }, { name := [98], fieldValue := [2] },
        { name := [99], fieldValue := [3] }]) ∧
      CompareHashStruct (.ptrToStruct [{ tag := [97], value := [4] },
          { tag := [98], value := [5] }, { tag := [99], value := [3] }])
        (hashInfo [{ name := [97], fieldValue := [1] }, { name := [98], fieldValue := [2] },
          { name := [99], fieldValue := [3] }]) =
      .ok (some { Field := [99] }) :=
  ⟨by rfl, by decide⟩

/-- Witness for C10 (amended) at a concrete record and stored hash. -/
theorem C10_compare_crash_iff_witness :
    (CompareHashStruct (.ptrToStruct [{ tag := [97], value := [1] }])
        [0, 0, 0, 0, 0, 0, 0, 0] = .crash ↔
      (([0, 0, 0, 0, 0, 0, 0, 0] : Bytes).length < 8 ∨
        (uint64FromSlice [0, 0, 0, 0, 0, 0, 0, 0] ≠
            (getHashes [{ name := [97], fieldValue := [1] }]).1 ∧
          Nat.clog 2 (([{ name := [97], fieldValue := [1] }] : List fieldInfo).length + 1) <
            (([0, 0, 0, 0, 0, 0, 0, 0] : Bytes).length - 8) / 4))) ∧
      (∀ loc, findErrorLocation (getHashes [{ name := [97], fieldValue := [1] }]).2
          (uint32SliceFromByteSlice (List.drop 8 ([0, 0, 0, 0, 0, 0, 0, 0] : Bytes))) =
            some (true, loc) →
        loc < ([{ name := [97], fieldValue := [1] }] : List fieldInfo).length) :=
  C10_compare_crash_iff (.ptrToStruct [{ tag := [97], value := [1] }])
    [{ name := [97], fieldValue := [1] }] [0, 0, 0, 0, 0, 0, 0, 0] (by rfl)

/-- Counterexample to C10 as stated: with an empty struct (no parity
words recomputed) and a stored hash carrying one extra parity word but a
matching full checksum, the claim predicts an index out of range, yet the
code returns nil without ever touching the parity words. -/
theorem C10_counterexample :
    Nat.clog 2 (([] : List fieldInfo).length + 1) <
        (((hashInfo ([] : List fieldInfo)) ++ [0, 0, 0, 0]).length - 8) / 4 ∧
      CompareHashStruct (.ptrToStruct []) (hashInfo ([] : List fieldInfo) ++ [0, 0, 0, 0]) =
        .ok none := by
  refine ⟨?_, by decide⟩
  rw [← log2OfXPlusOne_eq_clog]
  decide

/-- Counterexample to C7 as stated: an all-zero 12-byte stored hash
against the empty struct has at least 8 bytes and a mismatching full
checksum, but the comparison panics (index out of range in
`findErrorLocation`) instead of returning a `FieldChangedError`. -/
theorem C7_counterexample :
    8 ≤ (List.replicate 12 0 : Bytes).length ∧
      uint64FromSlice (List.replicate 12 0) ≠ (getHashes ([] : List fieldInfo)).1 ∧
      CompareHashStruct (.ptrToStruct []) (List.replicate 12 0) = .crash :=
  ⟨by decide, by decide, by decide⟩

end Infohash
